import Mathlib

/-!
Verification of the queue library in `queue.c` (lab0-c): a queue of
string-valued elements threaded on a circular doubly-linked list.

Embedding choices.  The abstract state of a queue is the list of its
elements in ring order, starting at the sentinel's `next`; the sentinel
itself is not represented.  C strings are byte lists (`List Nat`, bytes
before the NUL terminator; interior bytes are nonzero).  An element
record (`element_t`) is its identity (`id`, standing for the record's
address) together with the owned string bytes (`value`).  Fallible
operations return a `Bool` next to the new queue state, mirroring the C
return conventions; the NULL-queue argument, where a claim needs it, is
modelled by an `Option` wrapper.  `size_t` arithmetic is `Nat` reduced
modulo `2 ^ 64` where the C code can wrap.
-/

/-- Sign of C `strcmp` on two NUL-terminated strings, acting on the byte
lists before the terminator: the first differing byte decides; a strict
prefix is smaller because its NUL (0) compares below any string byte.
Only the sign of `strcmp` is used by `queue.c`. -/
def strcmp : List Nat → List Nat → Int
  | [], [] => 0
  | [], _ :: _ => -1
  | _ :: _, [] => 1
  | a :: as, b :: bs =>
    if a < b then -1 else if b < a then 1 else strcmp as bs

/-- The element record of `queue.c`: `id` models the record's address
(its identity across operations), `value` the owned string bytes. -/
structure element_t where
  id : Nat
  value : List Nat
deriving DecidableEq, Repr

/-- `strnlen(s, maxlen)`: length of `s` capped at `maxlen`. -/
def strnlen (s : List Nat) (maxlen : Nat) : Nat := min s.length maxlen

/-- The `n` bytes `strncpy(dst, src, n)` places in `dst`: the first
`min n (len src)` bytes of `src`, NUL-padded up to `n` only when `src`
ends before `n` bytes. -/
def strncpy_bytes (src : List Nat) (n : Nat) : List Nat :=
  src.take n ++ List.replicate (n - src.length) 0

/-- The buffer contents `q_insert_head` / `q_insert_tail` store for input
string `s` (queue.c lines 84-90 and 120-126):
`len_s = strnlen(s, 1024) + 1`, then `malloc(len_s)` and
`strncpy(node->value, s, len_s)`. -/
def stored_value (s : List Nat) : List Nat :=
  strncpy_bytes s (strnlen s 1024 + 1)

/-- `q_insert_head` on an initialized queue with a fresh record address
`id` (allocation assumed to succeed): link the new element first. -/
def q_insert_head (q : List element_t) (id : Nat) (s : List Nat) : List element_t :=
  ⟨id, stored_value s⟩ :: q

/-- `q_insert_tail`: link the new element last. -/
def q_insert_tail (q : List element_t) (id : Nat) (s : List Nat) : List element_t :=
  q ++ [⟨id, stored_value s⟩]

/-- `2 ^ 64`, the modulus of `size_t` arithmetic. -/
def size_t_mod : Nat := 18446744073709551616

/-- The writes `strncpy(sp, src, n)` performs on `sp`, as
(index, byte) pairs in order: indices `0 .. n-1`, source bytes then NUL
padding. -/
def strncpy_writes (src : List Nat) (n : Nat) : List (Nat × Nat) :=
  (List.range n).map (fun i => (i, src.getD i 0))

/-- The writes `q_remove_head` / `q_remove_tail` perform on a supplied
output buffer `sp` (queue.c lines 157-161 and 176-180):
`strncpy(sp, value, bufsize)` followed by `sp[bufsize - 1] = 0`, where
`bufsize - 1` is `size_t` subtraction and so wraps at `bufsize = 0`. -/
def remove_copy_writes (v : List Nat) (bufsize : Nat) : List (Nat × Nat) :=
  strncpy_writes v bufsize ++ [((bufsize + size_t_mod - 1) % size_t_mod, 0)]

/-- `q_remove_head`: unlink and return the first element; NULL result on
an empty queue. -/
def q_remove_head : List element_t → Option element_t × List element_t
  | [] => (none, [])
  | e :: rest => (some e, rest)

/-- `q_remove_tail`: unlink and return the last element. -/
def q_remove_tail (q : List element_t) : Option element_t × List element_t :=
  match q.getLast? with
  | none => (none, [])
  | some e => (some e, q.dropLast)

/-- The buffer writes of `q_remove_head` with a non-NULL `sp` of capacity
`bufsize`: none when the queue is empty (the copy is skipped), else the
`remove_copy_writes` of the removed element's value. -/
def q_remove_head_writes (q : List element_t) (bufsize : Nat) : List (Nat × Nat) :=
  match q with
  | [] => []
  | e :: _ => remove_copy_writes e.value bufsize

/-- Iteration count of the fast/slow loop, with `fast` starting at the
head of the given list and advancing two nodes while both `fast` and
`fast->next` differ from the sentinel.  `q_delete_mid` runs it on the
whole element list (fast = head->next, queue.c lines 226-229); `q_sort`
runs it on the tail (fast = head->next->next, lines 348-352).  The slow
side advances one position per iteration, so the result is the slow
index. -/
def fast_slow_steps : List element_t → Nat
  | [] => 0
  | [_] => 0
  | _ :: _ :: fs => fast_slow_steps fs + 1

/-- `q_delete_mid` (queue.c lines 219-235): false on an empty queue,
else unlink and free the element the slow pointer reached. -/
def q_delete_mid : List element_t → Bool × List element_t
  | [] => (false, [])
  | x :: xs => (true, (x :: xs).eraseIdx (fast_slow_steps (x :: xs)))

/-- The traversal loop of `q_delete_dup` (queue.c lines 256-264) over the
elements after the first.  `firstVal` is the value of `head->next` — the
first element, which the loop never moves and whose value the loop
re-reads into `tmp` every iteration; `currVal` is the loop variable
`val`.  A node with `strcmp(val, tmp) == 0` is moved to the scratch
queue (deleted); otherwise `val = tmp` and the node stays. -/
def dedup_loop (firstVal currVal : List Nat) : List element_t → List element_t
  | [] => []
  | node :: rest =>
    if strcmp currVal firstVal = 0 then dedup_loop firstVal currVal rest
    else node :: dedup_loop firstVal firstVal rest

/-- `q_delete_dup` (queue.c lines 246-267): `return NULL` (false) when
the queue is empty; else `val` starts as the first element's value and
the loop of `dedup_loop` runs over the remaining elements. -/
def q_delete_dup : List element_t → Bool × List element_t
  | [] => (false, [])
  | e :: rest => (true, e :: dedup_loop e.value e.value rest)

/-- `q_delete_dup` including the NULL-queue argument (`none`), which the
guard at queue.c line 252 rejects alongside the empty queue. -/
def q_delete_dup_opt : Option (List element_t) → Bool × Option (List element_t)
  | none => (false, none)
  | some q => ((q_delete_dup q).1, some (q_delete_dup q).2)

/-- `q_reverse` (queue.c lines 292-305): early return on an empty queue,
else every node (sentinel included) has its `next` and `prev` exchanged,
so the forward traversal afterwards is the reversed element order. -/
def q_reverse : List element_t → List element_t
  | [] => []
  | x :: xs => (x :: xs).reverse

/-- The loop state of `merge_two_list` (queue.c lines 320-337): the left
ring is split as `before ++ cur :: after` around the cursor `left`
(`cur` is the node `left` points at), `rights` is what remains of the
right ring.  Per right node `r`: while the cursor has a successor and
`strcmp(cur, r) <= 0`, advance the cursor; then insert `r` before the
cursor when the last comparison was `> 0`, else after it. -/
def mergeCore (before : List element_t) (cur : element_t)
    (after rights : List element_t) : List element_t :=
  match after, rights with
  | after, [] => before ++ cur :: after
  | [], r :: rs =>
    if strcmp cur.value r.value ≤ 0 then mergeCore before cur [r] rs
    else mergeCore (before ++ [r]) cur [] rs
  | a :: afterTail, r :: rs =>
    if strcmp cur.value r.value ≤ 0 then mergeCore (before ++ [cur]) a afterTail (r :: rs)
    else mergeCore (before ++ [r]) cur (a :: afterTail) rs
termination_by 2 * rights.length + after.length

/-- `merge_two_list` (queue.c lines 311-338): splice the right ring onto
the left sentinel when the left ring is empty; otherwise run the cursor
loop with `left = left_head->next`. -/
def merge_two_list (left right : List element_t) : List element_t :=
  match left with
  | [] => right
  | l :: ls => mergeCore [] l ls right

/-- `q_sort` (queue.c lines 344-369): no-op below two elements; split
after the slow pointer (`left = take (slow index + 1)`), recursively
sort both rings, then `merge_two_list` them. -/
def q_sort (l : List element_t) : List element_t :=
  if h : l.length ≤ 1 then l
  else
    merge_two_list (q_sort (l.take (fast_slow_steps l.tail + 1)))
      (q_sort (l.drop (fast_slow_steps l.tail + 1)))
termination_by l.length
decreasing_by
  all_goals
    have hb : ∀ xs : List element_t, 2 * fast_slow_steps xs ≤ xs.length := by
      intro xs
      induction xs using fast_slow_steps.induct with
      | case1 => simp [fast_slow_steps]
      | case2 => simp [fast_slow_steps]
      | case3 x y fs ih => simp only [fast_slow_steps, List.length_cons]; omega
  all_goals have hc := hb l.tail
  all_goals rw [List.length_tail] at hc
  · rw [List.length_take]; omega
  · rw [List.length_drop]; omega

/-- The byte-order relation `q_sort` sorts by. -/
@[reducible] def sle (a b : element_t) : Prop := strcmp a.value b.value ≤ 0

/-- Concrete elements for counterexamples. -/
def celem (n : Nat) : element_t := ⟨n, [n]⟩

theorem strcmp_self (a : List Nat) : strcmp a a = 0 := by
  induction a with
  | nil => rfl
  | cons x xs ih => simp [strcmp, ih]

theorem strcmp_neg (a b : List Nat) : strcmp a b = - strcmp b a := by
  induction a generalizing b with
  | nil => cases b <;> simp [strcmp]
  | cons x xs ih =>
    cases b with
    | nil => simp [strcmp]
    | cons y ys =>
      simp only [strcmp]
      split_ifs with h1 h2 <;> first | omega | exact ih ys

theorem strcmp_le_trans {a b c : List Nat}
    (h1 : strcmp a b ≤ 0) (h2 : strcmp b c ≤ 0) : strcmp a c ≤ 0 := by
  induction a generalizing b c with
  | nil => cases c <;> simp [strcmp]
  | cons x xs ih =>
    cases b with
    | nil => simp [strcmp] at h1
    | cons y ys =>
      cases c with
      | nil => simp [strcmp] at h2
      | cons z zs =>
        simp only [strcmp] at h1 h2 ⊢
        split_ifs at h1 h2 ⊢ <;> first | omega | exact ih h1 h2

theorem strcmp_total {a b : List Nat} (h : ¬ strcmp a b ≤ 0) : strcmp b a ≤ 0 := by
  have hn := strcmp_neg a b
  omega

theorem dedup_loop_self (fv : List Nat) (rest : List element_t) :
    dedup_loop fv fv rest = [] := by
  induction rest with
  | nil => rfl
  | cons n rest ih => simp [dedup_loop, strcmp_self, ih]

/-- C9: on any queue of at least two elements, `q_delete_dup` deletes
every element except the first — the loop compares `val` against the
re-read value of the never-moved first element each iteration, so the
comparison is always equal and every visited node is moved to the
scratch queue and freed; the function returns true with only the
original first element left. -/
theorem delete_dup_keeps_only_first (e1 e2 : element_t) (rest : List element_t) :
    q_delete_dup (e1 :: e2 :: rest) = (true, [e1]) := by
  simp [q_delete_dup, dedup_loop_self]

/-- C1: the claim fails on the code; this evaluates `q_delete_dup` at a
sorted queue of two distinct values (so both appeared exactly once and
should both remain): the second element is deleted and only the first
survives. -/
theorem delete_dup_deletes_unique_values :
    strcmp [97] [98] ≤ 0 ∧
    q_delete_dup [⟨1, [97]⟩, ⟨2, [98]⟩] = (true, [⟨1, [97]⟩]) := by
  exact ⟨by decide, by decide⟩

/-- C6 counterexample: on a valid but empty queue `q_delete_dup` takes
the guard `head->next == head` and returns NULL (false), not true. -/
theorem delete_dup_empty_queue_fails :
    (q_delete_dup_opt (some ([] : List element_t))).1 ≠ true := by
  decide

/-- C6 amended: `q_delete_dup` returns false both when the queue
reference is absent and when the queue is empty; it returns true exactly
on nonempty queues. -/
theorem delete_dup_return_value :
    (q_delete_dup_opt none).1 = false ∧
    (q_delete_dup_opt (some ([] : List element_t))).1 = false ∧
    ∀ (e : element_t) (rest : List element_t),
      (q_delete_dup_opt (some (e :: rest))).1 = true := by
  exact ⟨rfl, rfl, fun e rest => rfl⟩

/-- C3: the claim fails on the code; evaluating the stored copy at a
2000-character input shows `strnlen(s,1024)+1 = 1025` bytes of `s` are
copied and, the source being longer than the copy bound, no NUL
terminator is stored — not 1024 characters plus a terminator. -/
theorem insert_long_string_not_terminated :
    q_insert_head [] 7 (List.replicate 2000 97)
      = [⟨7, List.replicate 1025 97⟩] ∧
    (0 : Nat) ∉ stored_value (List.replicate 2000 97) ∧
    stored_value (List.replicate 2000 97)
      ≠ (List.replicate 2000 97).take 1024 ++ [0] := by
  have hs : stored_value (List.replicate 2000 97) = List.replicate 1025 97 := by
    unfold stored_value strnlen strncpy_bytes
    rw [List.length_replicate, List.take_replicate]
    norm_num
  have hm : (0 : Nat) ∉ stored_value (List.replicate 2000 97) := by
    rw [hs]
    intro hmem
    have := (List.eq_of_mem_replicate hmem)
    omega
  refine ⟨?_, hm, fun hcontra => ?_⟩
  · unfold q_insert_head
    rw [hs]
  · apply hm
    rw [hcontra]
    exact List.mem_append_right _ (List.mem_singleton.2 rfl)

/-- C4 counterexample: on six elements the fast/slow loop runs three
iterations, so `q_delete_mid` deletes the element at zero-based index
3 — not index 2 as claimed. -/
theorem delete_mid_six_removes_index_three :
    q_delete_mid [celem 0, celem 1, celem 2, celem 3, celem 4, celem 5]
      = (true, [celem 0, celem 1, celem 2, celem 4, celem 5]) ∧
    (q_delete_mid [celem 0, celem 1, celem 2, celem 3, celem 4, celem 5]).2
      ≠ [celem 0, celem 1, celem 3, celem 4, celem 5] := by
  decide

/-- C4 amended: `q_delete_mid` deletes the element at zero-based index
`⌊n/2⌋`: on `[v0,v1,v2,v3,v4,v5]` it deletes `v3` (index 3), leaving
`[v0,v1,v2,v4,v5]`; on `[v0,v1,v2,v3,v4]` it deletes `v2` (index 2),
leaving `[v0,v1,v3,v4]`. -/
theorem delete_mid_six_and_five (v0 v1 v2 v3 v4 v5 : element_t) :
    q_delete_mid [v0, v1, v2, v3, v4, v5] = (true, [v0, v1, v2, v4, v5]) ∧
    q_delete_mid [v0, v1, v2, v3, v4] = (true, [v0, v1, v3, v4]) := by
  exact ⟨rfl, rfl⟩

/-- C8: `q_reverse` is its own inverse. -/
theorem q_reverse_involutive (q : List element_t) : q_reverse (q_reverse q) = q := by
  cases q with
  | nil => rfl
  | cons x xs =>
    have h1 : q_reverse (x :: xs) = (x :: xs).reverse := rfl
    rw [h1]
    cases h : (x :: xs).reverse with
    | nil => simp at h
    | cons y ys =>
      have h2 : q_reverse (y :: ys) = (y :: ys).reverse := rfl
      rw [h2, ← h, List.reverse_reverse]

theorem sp_term_index (bufsize : Nat) (h1 : 1 ≤ bufsize) (h2 : bufsize < size_t_mod) :
    (bufsize + size_t_mod - 1) % size_t_mod = bufsize - 1 := by
  have h3 : bufsize + size_t_mod - 1 = (bufsize - 1) + size_t_mod := by omega
  rw [h3, Nat.add_mod_right, Nat.mod_eq_of_lt (by omega)]

/-- C5 counterexample: removing with a supplied `sp` of capacity
`bufsize = 0` performs the write `sp[bufsize - 1] = 0`, whose `size_t`
index wraps to `2^64 - 1` — a write far beyond the 0-byte capacity, so
the operation does not stay within the buffer for every `bufsize`. -/
theorem remove_copy_bufsize_zero_oob :
    q_remove_head_writes [⟨1, [97]⟩] 0 = [(size_t_mod - 1, 0)] ∧
    ¬ (∀ w ∈ q_remove_head_writes [⟨1, [97]⟩] 0, w.1 < 0) := by
  refine ⟨rfl, fun hall => ?_⟩
  have := hall (size_t_mod - 1, 0) (by rw [show q_remove_head_writes [⟨1, [97]⟩] 0 = [(size_t_mod - 1, 0)] from rfl]; exact List.mem_singleton.2 rfl)
  omega

/-- C5 amended: for every capacity `bufsize ≥ 1` (below the `size_t`
wrap), every buffer write of a removal lands at an index below
`bufsize`, and the final write places the NUL terminator at index
`bufsize - 1` — so at most `bufsize - 1` characters of the removed
string survive in the buffer. -/
theorem remove_copy_stays_in_bounds (e : element_t) (rest : List element_t)
    (bufsize : Nat) (h1 : 1 ≤ bufsize) (h2 : bufsize < size_t_mod) :
    (∀ w ∈ q_remove_head_writes (e :: rest) bufsize, w.1 < bufsize) ∧
    (q_remove_head_writes (e :: rest) bufsize).getLast? = some (bufsize - 1, 0) := by
  have hq : q_remove_head_writes (e :: rest) bufsize
      = remove_copy_writes e.value bufsize := rfl
  constructor
  · intro w hw
    rw [hq] at hw
    simp only [remove_copy_writes, strncpy_writes, List.mem_append,
      List.mem_map, List.mem_range, List.mem_singleton] at hw
    rcases hw with ⟨i, hi, rfl⟩ | rfl
    · exact hi
    · rw [sp_term_index bufsize h1 h2]
      omega
  · rw [hq]
    simp only [remove_copy_writes]
    rw [List.getLast?_append_cons, sp_term_index bufsize h1 h2]
    rfl

/-- C5 witness: the amended bound at `bufsize = 2` on a one-element
queue. -/
theorem remove_copy_stays_in_bounds_witness :
    (∀ w ∈ q_remove_head_writes [⟨1, [97]⟩] 2, w.1 < 2) ∧
    (q_remove_head_writes [⟨1, [97]⟩] 2).getLast? = some (1, 0) :=
  remove_copy_stays_in_bounds ⟨1, [97]⟩ [] 2 (by decide) (by decide)

theorem two_mul_steps_le (l : List element_t) : 2 * fast_slow_steps l ≤ l.length := by
  induction l using fast_slow_steps.induct with
  | case1 => simp [fast_slow_steps]
  | case2 => simp [fast_slow_steps]
  | case3 x y fs ih => simp only [fast_slow_steps, List.length_cons]; omega

theorem mergeCore_perm (rights : List element_t) :
    ∀ (before : List element_t) (cur : element_t) (after : List element_t),
      (mergeCore before cur after rights).Perm (before ++ cur :: (after ++ rights)) := by
  induction rights with
  | nil =>
    intro before cur after
    simp [mergeCore]
  | cons r rs ihr =>
    intro before cur after
    induction after generalizing before cur with
    | nil =>
      simp only [mergeCore]
      split_ifs with h
      · refine (ihr before cur [r]).trans ?_
        simp
      · refine (ihr (before ++ [r]) cur []).trans ?_
        simp only [List.append_assoc, List.singleton_append, List.nil_append]
        exact List.Perm.append_left before (List.Perm.swap cur r rs)
    | cons a afterTail iha =>
      simp only [mergeCore]
      split_ifs with h
      · refine (iha (before ++ [cur]) a).trans ?_
        simp
      · refine (ihr (before ++ [r]) cur (a :: afterTail)).trans ?_
        simp only [List.append_assoc, List.singleton_append, List.cons_append]
        refine List.Perm.append_left before ?_
        have hm := @List.perm_middle element_t r (cur :: a :: afterTail) rs
        simp only [List.cons_append] at hm
        exact hm.symm

theorem merge_two_list_perm (left right : List element_t) :
    (merge_two_list left right).Perm (left ++ right) := by
  cases left with
  | nil => simp [merge_two_list]
  | cons l ls => simpa using mergeCore_perm right [] l ls

theorem sle_trans {x y z : element_t} (h1 : sle x y) (h2 : sle y z) : sle x z :=
  strcmp_le_trans h1 h2

theorem sle_total {x y : element_t} (h : ¬ sle x y) : sle y x :=
  strcmp_total h

theorem mergeCore_sorted (rights : List element_t) :
    ∀ (before : List element_t) (cur : element_t) (after : List element_t),
      (before ++ cur :: after).Pairwise sle → rights.Pairwise sle →
      (∀ b ∈ before, ∀ r ∈ rights, sle b r) →
      (mergeCore before cur after rights).Pairwise sle := by
  induction rights with
  | nil =>
    intro before cur after h1 _ _
    simpa [mergeCore] using h1
  | cons r rs ihr =>
    intro before cur after
    induction after generalizing before cur with
    | nil =>
      intro h1 h2 h3
      have hb : before.Pairwise sle := (List.pairwise_append.mp h1).1
      have hbc : ∀ b ∈ before, sle b cur := by
        intro b hbm
        exact (List.pairwise_append.mp h1).2.2 b hbm cur (by simp)
      simp only [mergeCore]
      split_ifs with h
      · refine ihr before cur [r] ?_ h2.of_cons ?_
        · refine List.pairwise_append.mpr ⟨hb, ?_, ?_⟩
          · exact List.pairwise_cons.mpr
              ⟨by intro x hx; rw [List.mem_singleton.mp hx]; exact h, by simp⟩
          · intro b hbm x hxm
            rcases List.mem_cons.mp hxm with rfl | hxr
            · exact hbc b hbm
            · rw [List.mem_singleton.mp hxr]
              exact h3 b hbm r (by simp)
        · intro b hbm r' hr'
          exact h3 b hbm r' (List.mem_cons_of_mem _ hr')
      · have hrc : sle r cur := sle_total h
        refine ihr (before ++ [r]) cur [] ?_ h2.of_cons ?_
        · refine List.pairwise_append.mpr ⟨?_, by simp, ?_⟩
          · refine List.pairwise_append.mpr ⟨hb, by simp, ?_⟩
            intro b hbm x hxm
            rw [List.mem_singleton.mp hxm]
            exact h3 b hbm r (by simp)
          · intro b hbm x hxm
            rw [List.mem_singleton.mp hxm]
            rcases List.mem_append.mp hbm with hbb | hbr
            · exact hbc b hbb
            · rw [List.mem_singleton.mp hbr]
              exact hrc
        · intro b hbm r' hr'
          rcases List.mem_append.mp hbm with hbb | hbr
          · exact h3 b hbb r' (List.mem_cons_of_mem _ hr')
          · rw [List.mem_singleton.mp hbr]
            exact List.rel_of_pairwise_cons h2 hr'
    | cons a afterTail iha =>
      intro h1 h2 h3
      have hb : before.Pairwise sle := (List.pairwise_append.mp h1).1
      have hca : (cur :: a :: afterTail).Pairwise sle := (List.pairwise_append.mp h1).2.1
      have hcross : ∀ b ∈ before, ∀ x ∈ cur :: a :: afterTail, sle b x :=
        (List.pairwise_append.mp h1).2.2
      simp only [mergeCore]
      split_ifs with h
      · refine iha (before ++ [cur]) a ?_ h2 ?_
        · rw [List.append_assoc]
          simpa using h1
        · intro b hbm x hxm
          rcases List.mem_append.mp hbm with hbb | hbc'
          · exact h3 b hbb x hxm
          · rw [List.mem_singleton.mp hbc']
            rcases List.mem_cons.mp hxm with rfl | hxr
            · exact h
            · exact sle_trans h (List.rel_of_pairwise_cons h2 hxr)
      · have hrc : sle r cur := sle_total h
        refine ihr (before ++ [r]) cur (a :: afterTail) ?_ h2.of_cons ?_
        · refine List.pairwise_append.mpr ⟨?_, hca, ?_⟩
          · refine List.pairwise_append.mpr ⟨hb, by simp, ?_⟩
            intro b hbm x hxm
            rw [List.mem_singleton.mp hxm]
            exact h3 b hbm r (by simp)
          · intro b hbm x hxm
            rcases List.mem_append.mp hbm with hbb | hbr
            · exact hcross b hbb x hxm
            · rw [List.mem_singleton.mp hbr]
              rcases List.mem_cons.mp hxm with rfl | hxr
              · exact hrc
              · exact sle_trans hrc (List.rel_of_pairwise_cons hca hxr)
        · intro b hbm r' hr'
          rcases List.mem_append.mp hbm with hbb | hbr
          · exact h3 b hbb r' (List.mem_cons_of_mem _ hr')
          · rw [List.mem_singleton.mp hbr]
            exact List.rel_of_pairwise_cons h2 hr'

theorem merge_two_list_sorted (left right : List element_t)
    (hl : left.Pairwise sle) (hr : right.Pairwise sle) :
    (merge_two_list left right).Pairwise sle := by
  cases left with
  | nil => simpa [merge_two_list] using hr
  | cons l ls =>
    refine mergeCore_sorted right [] l ls ?_ hr ?_
    · simpa using hl
    · simp

theorem q_sort_perm (l : List element_t) : (q_sort l).Perm l := by
  induction l using q_sort.induct with
  | case1 l h =>
    unfold q_sort
    rw [dif_pos h]
  | case2 l h ih1 ih2 =>
    unfold q_sort
    rw [dif_neg h]
    refine (merge_two_list_perm _ _).trans ?_
    refine (ih1.append ih2).trans ?_
    rw [List.take_append_drop]

theorem q_sort_sorted (l : List element_t) : (q_sort l).Pairwise sle := by
  induction l using q_sort.induct with
  | case1 l h =>
    unfold q_sort
    rw [dif_pos h]
    rcases l with _ | ⟨x, _ | ⟨y, t⟩⟩
    · simp
    · simp
    · simp at h
  | case2 l h ih1 ih2 =>
    unfold q_sort
    rw [dif_neg h]
    exact merge_two_list_sorted _ _ ih1 ih2

/-- C2: after `q_sort`, every adjacent pair of elements `a`
(immediately before) and `b` satisfies `strcmp(a.value, b.value) <= 0`:
the queue is in ascending byte-wise string order. -/
theorem q_sort_adjacent_le (l : List element_t) :
    (q_sort l).Chain' (fun a b => strcmp a.value b.value ≤ 0) :=
  (q_sort_sorted l).chain'

/-- C10: `q_sort` only relinks: the sorted queue holds exactly the same
element records as the input (a permutation of them), each with its
identity and string value unchanged. -/
theorem q_sort_same_records (l : List element_t) : (q_sort l).Perm l :=
  q_sort_perm l
